import Mathlib

/-!
Verification of the Lorenz attractor watch-face demo (`tools/chaos_demo.py`).

The development shallowly embeds the core of the script over the reals:
* `Vec3` / `LorenzSim` — the state vector and the simulator object built by
  `LorenzSimulator.__init__`;
* `lorenz_derivative`, `update_lorenz` — the RK4 integrator;
* `pushBuf` / `add_trajectory_point` — the bounded trajectory buffer;
* `rotXs`, `rotYs`, `effRange`, `scaleFor`, `get_screen_coordinates` — the
  rotating projection with auto-fit scaling and clamping;
* `rotStep`, `rotAngle` — the per-frame rotation update of `simulate_frame`;
* `stroke3`, `stroke5`, `framePainted` — the pixel-painting predicate of
  `create_watchy_frame_pil`.

Python floats are modelled as real numbers; `int(...)` applied to the
nonnegative screen coordinates is modelled by `Int.floor`.
-/

namespace ChaosDemo

/-- A 3-component state vector `(x, y, z)` (`np.array([x, y, z])`). -/
@[ext]
structure Vec3 where
  x : ℝ
  y : ℝ
  z : ℝ

/-- Componentwise vector addition (numpy `+` on 3-arrays). -/
def vadd (a b : Vec3) : Vec3 := ⟨a.x + b.x, a.y + b.y, a.z + b.z⟩

/-- Scalar multiple of a vector (numpy scalar `*`). -/
def vscale (c : ℝ) (a : Vec3) : Vec3 := ⟨c * a.x, c * a.y, c * a.z⟩

/-- The simulator object: the fields set by `LorenzSimulator.__init__`. -/
structure LorenzSim where
  sigma : ℝ
  rho : ℝ
  beta : ℝ
  dt : ℝ
  pos : Vec3
  max_points : ℕ
  trajectory : List Vec3
  rotation_angle : ℝ
  display_width : ℕ
  display_height : ℕ

/-- The simulator produced by `LorenzSimulator.__init__` (no parameters:
every field is hardcoded). -/
noncomputable def init : LorenzSim :=
  { sigma := 10.0
    rho := 28.0
    beta := 8.0 / 3.0
    dt := 0.05
    pos := ⟨1.0, 1.0, 1.0⟩
    max_points := 300
    trajectory := []
    rotation_angle := 0.0
    display_width := 200
    display_height := 200 }

/-- `LorenzSimulator.lorenz_derivative`: the Lorenz vector field at `p`,
with the parameters taken from the simulator object. -/
noncomputable def lorenz_derivative (s : LorenzSim) (p : Vec3) : Vec3 :=
  ⟨s.sigma * (p.y - p.x), p.x * (s.rho - p.z) - p.y, p.x * p.y - s.beta * p.z⟩

/-- `LorenzSimulator.update_lorenz`: one RK4 step; only `pos` changes. -/
noncomputable def update_lorenz (s : LorenzSim) : LorenzSim :=
  let k1 := lorenz_derivative s s.pos
  let k2 := lorenz_derivative s (vadd s.pos (vscale (s.dt / 2) k1))
  let k3 := lorenz_derivative s (vadd s.pos (vscale (s.dt / 2) k2))
  let k4 := lorenz_derivative s (vadd s.pos (vscale s.dt k3))
  { s with
    pos := vadd s.pos
      (vscale (s.dt / 6) (vadd (vadd k1 (vscale 2 k2)) (vadd (vscale 2 k3) k4))) }

@[simp] theorem update_lorenz_sigma (s : LorenzSim) : (update_lorenz s).sigma = s.sigma := rfl
@[simp] theorem update_lorenz_rho (s : LorenzSim) : (update_lorenz s).rho = s.rho := rfl
@[simp] theorem update_lorenz_beta (s : LorenzSim) : (update_lorenz s).beta = s.beta := rfl
@[simp] theorem update_lorenz_dt (s : LorenzSim) : (update_lorenz s).dt = s.dt := rfl
@[simp] theorem update_lorenz_traj (s : LorenzSim) :
    (update_lorenz s).trajectory = s.trajectory := rfl
@[simp] theorem update_lorenz_max (s : LorenzSim) :
    (update_lorenz s).max_points = s.max_points := rfl

/-- `n` successive integration steps (the inner loop of `simulate_frame`). -/
noncomputable def runSteps : ℕ → LorenzSim → LorenzSim
  | 0, s => s
  | n + 1, s => update_lorenz (runSteps n s)

/-- The sequence of states visited during a run of `n` steps. -/
noncomputable def stateTrace (n : ℕ) (s : LorenzSim) : List Vec3 :=
  (List.range n).map (fun k => (runSteps k s).pos)

/-- C1: one RK4 step computes the four Lorenz stage evaluations at the
current state, the two half-`dt` advanced states, and the full-`dt`
advanced state, with σ = 10, ρ = 28, β = 8/3, dt = 0.05, and returns
`pos + (k1 + 2 k2 + 2 k3 + k4) * dt / 6`. -/
theorem rk4_step_formula (p : Vec3) :
    (update_lorenz { init with pos := p }).pos =
      (fun f =>
        (fun k1 =>
          (fun k2 =>
            (fun k3 =>
              (fun k4 =>
                (⟨p.x + (k1.x + 2 * k2.x + 2 * k3.x + k4.x) * 0.05 / 6,
                  p.y + (k1.y + 2 * k2.y + 2 * k3.y + k4.y) * 0.05 / 6,
                  p.z + (k1.z + 2 * k2.z + 2 * k3.z + k4.z) * 0.05 / 6⟩ : Vec3))
                (f ⟨p.x + 0.05 * k3.x, p.y + 0.05 * k3.y, p.z + 0.05 * k3.z⟩))
              (f ⟨p.x + 0.05 / 2 * k2.x, p.y + 0.05 / 2 * k2.y, p.z + 0.05 / 2 * k2.z⟩))
            (f ⟨p.x + 0.05 / 2 * k1.x, p.y + 0.05 / 2 * k1.y, p.z + 0.05 / 2 * k1.z⟩))
          (f p))
        (fun q : Vec3 =>
          (⟨10.0 * (q.y - q.x), q.x * (28.0 - q.z) - q.y, q.x * q.y - 8 / 3 * q.z⟩ : Vec3)) := by
  simp only [update_lorenz, lorenz_derivative, vadd, vscale, init]
  ext <;> ring

/-- Two simulators agreeing on the integrator inputs (parameters, step size,
and current state) stay in lockstep under `update_lorenz`. -/
theorem update_lorenz_congr (s t : LorenzSim)
    (hσ : s.sigma = t.sigma) (hρ : s.rho = t.rho) (hβ : s.beta = t.beta)
    (hdt : s.dt = t.dt) (hp : s.pos = t.pos) :
    (update_lorenz s).pos = (update_lorenz t).pos := by
  simp only [update_lorenz, lorenz_derivative, hσ, hρ, hβ, hdt, hp]

theorem runSteps_pos_congr (s t : LorenzSim)
    (hσ : s.sigma = t.sigma) (hρ : s.rho = t.rho) (hβ : s.beta = t.beta)
    (hdt : s.dt = t.dt) (hp : s.pos = t.pos) :
    ∀ n, (runSteps n s).pos = (runSteps n t).pos := by
  have key : ∀ n, (runSteps n s).sigma = (runSteps n t).sigma ∧
      (runSteps n s).rho = (runSteps n t).rho ∧
      (runSteps n s).beta = (runSteps n t).beta ∧
      (runSteps n s).dt = (runSteps n t).dt ∧
      (runSteps n s).pos = (runSteps n t).pos := by
    intro n
    induction n with
    | zero => exact ⟨hσ, hρ, hβ, hdt, hp⟩
    | succ n ih =>
      obtain ⟨h1, h2, h3, h4, h5⟩ := ih
      exact ⟨by simp [runSteps, h1], by simp [runSteps, h2], by simp [runSteps, h3],
        by simp [runSteps, h4], by simpa [runSteps] using update_lorenz_congr _ _ h1 h2 h3 h4 h5⟩
  exact fun n => (key n).2.2.2.2

/-- C8: the integrator step is a function of the current state and the fixed
parameters alone — two independent runs (even of simulator objects differing
in every field the integrator does not read) produce identical state
sequences. -/
theorem integration_deterministic (s t : LorenzSim)
    (hσ : s.sigma = t.sigma) (hρ : s.rho = t.rho) (hβ : s.beta = t.beta)
    (hdt : s.dt = t.dt) (hp : s.pos = t.pos) (n : ℕ) :
    stateTrace n s = stateTrace n t := by
  unfold stateTrace
  exact List.map_congr_left fun k _ => runSteps_pos_congr s t hσ hρ hβ hdt hp k

/-- A second, independent run instance: same integrator inputs as `init`,
different trajectory and rotation state. -/
noncomputable def initB : LorenzSim :=
  { init with trajectory := [⟨0, 0, 0⟩], rotation_angle := 1 }

/-- Witness for C8 at a concrete pair of runs. -/
theorem integration_deterministic_witness :
    stateTrace 5 init = stateTrace 5 initB :=
  integration_deterministic init initB rfl rfl rfl rfl rfl 5

/-! ## Trajectory buffer -/

/-- One push into the bounded trajectory buffer
(`LorenzSimulator.add_trajectory_point`, abstracted over the stored list):
append while below capacity, otherwise drop the oldest element (index 0),
then append. -/
def pushBuf (cap : ℕ) (buf : List Vec3) (p : Vec3) : List Vec3 :=
  if buf.length < cap then buf ++ [p] else buf.drop 1 ++ [p]

/-- `add_trajectory_point`: push a copy of the current position. -/
noncomputable def add_trajectory_point (s : LorenzSim) : LorenzSim :=
  { s with trajectory := pushBuf s.max_points s.trajectory s.pos }

theorem pushBuf_length_le (cap : ℕ) (hcap : 0 < cap) (buf : List Vec3) (p : Vec3)
    (h : buf.length ≤ cap) : (pushBuf cap buf p).length ≤ cap := by
  unfold pushBuf
  by_cases hlt : buf.length < cap
  · rw [if_pos hlt]
    simp only [List.length_append, List.length_singleton, List.length_nil]
    omega
  · rw [if_neg hlt]
    simp only [List.length_append, List.length_singleton, List.length_nil, List.length_drop]
    omega

theorem foldl_pushBuf_eq_drop (cap : ℕ) (hcap : 0 < cap) (ps : List Vec3) :
    ∀ buf : List Vec3, buf.length ≤ cap →
      List.foldl (pushBuf cap) buf ps =
        (buf ++ ps).drop (buf.length + ps.length - cap) := by
  induction ps with
  | nil =>
    intro buf h
    simp [Nat.sub_eq_zero_of_le h]
  | cons p ps ih =>
    intro buf h
    rw [List.foldl_cons, ih _ (pushBuf_length_le cap hcap buf p h)]
    by_cases hlt : buf.length < cap
    · rw [show pushBuf cap buf p = buf ++ [p] from if_pos hlt]
      have hc : (buf ++ [p]).length + ps.length - cap =
          buf.length + (p :: ps).length - cap := by
        simp only [List.length_append, List.length_singleton, List.length_nil, List.length_cons]
        omega
      rw [hc, List.append_assoc, List.singleton_append]
    · have heq : buf.length = cap := by omega
      have hbl : 1 ≤ buf.length := by omega
      rw [show pushBuf cap buf p = buf.drop 1 ++ [p] from if_neg hlt]
      have hL : (buf.drop 1 ++ [p]).length + ps.length - cap = ps.length := by
        simp only [List.length_append, List.length_singleton, List.length_nil, List.length_drop]
        omega
      have hR : buf.length + (p :: ps).length - cap = 1 + ps.length := by
        simp only [List.length_cons, List.length_nil]
        omega
      rw [hL, hR, List.append_assoc, List.singleton_append,
        ← List.drop_drop, List.drop_append_of_le_length hbl]

/-- C2: pushing `k` points into the empty capacity-300 buffer leaves
`min k 300` points, and once `k ≥ 300` exactly the 300 most recently pushed
points survive, in push order. -/
theorem buffer_sliding_window (ps : List Vec3) :
    (List.foldl (pushBuf 300) [] ps).length = min ps.length 300 ∧
      List.foldl (pushBuf 300) [] ps = ps.drop (ps.length - 300) := by
  have h := foldl_pushBuf_eq_drop 300 (by omega) ps [] (by simp)
  simp only [List.nil_append, List.length_nil, Nat.zero_add] at h
  refine ⟨?_, h⟩
  rw [h, List.length_drop]
  omega

/-- An operation of the driver's inner loop: one integration step
(`update_lorenz`) or one buffer push (`add_trajectory_point`). -/
inductive SimOp where
  | integrate : SimOp
  | record : SimOp

/-- Run a sequence of operations on the simulator. -/
noncomputable def runOps : List SimOp → LorenzSim → LorenzSim
  | [], s => s
  | SimOp.integrate :: ops, s => runOps ops (update_lorenz s)
  | SimOp.record :: ops, s => runOps ops (add_trajectory_point s)

/-- The value of the state vector at each push moment of the run. -/
noncomputable def snapshots : List SimOp → LorenzSim → List Vec3
  | [], _ => []
  | SimOp.integrate :: ops, s => snapshots ops (update_lorenz s)
  | SimOp.record :: ops, s => s.pos :: snapshots ops (add_trajectory_point s)

@[simp] theorem add_trajectory_point_pos (s : LorenzSim) :
    (add_trajectory_point s).pos = s.pos := rfl
@[simp] theorem add_trajectory_point_max (s : LorenzSim) :
    (add_trajectory_point s).max_points = s.max_points := rfl
@[simp] theorem add_trajectory_point_traj (s : LorenzSim) :
    (add_trajectory_point s).trajectory = pushBuf s.max_points s.trajectory s.pos := rfl

theorem runOps_max_points (ops : List SimOp) (s : LorenzSim) :
    (runOps ops s).max_points = s.max_points := by
  induction ops generalizing s with
  | nil => rfl
  | cons op ops ih => cases op <;> simp [runOps, ih]

/-- C9: each recorded trajectory point is a snapshot of the state at the
moment of the push.  Integration steps never touch the buffer, and for any
interleaving of steps and pushes the final buffer is obtained by folding
exactly the push-time snapshot values into the starting buffer — later
mutation of the state vector leaves previously recorded points unchanged. -/
theorem trajectory_points_are_snapshots (ops : List SimOp) (s : LorenzSim) :
    (update_lorenz s).trajectory = s.trajectory ∧
      (runOps ops s).trajectory =
        List.foldl (pushBuf s.max_points) s.trajectory (snapshots ops s) := by
  refine ⟨rfl, ?_⟩
  induction ops generalizing s with
  | nil => rfl
  | cons op ops ih =>
    cases op with
    | integrate =>
      simpa [runOps, snapshots] using ih (update_lorenz s)
    | record =>
      simpa [runOps, snapshots] using ih (add_trajectory_point s)

/-! ## Viewport projection -/

/-- `np.clip(v, 5, 195)`. -/
noncomputable def clipR (v : ℝ) : ℝ := max 5 (min v 195)

/-- The rotated x-coordinates of the trajectory
(`project_3d_to_2d`: `x_rot = x*cos(angle) - z*sin(angle)`). -/
noncomputable def rotXs (θ : ℝ) (traj : List Vec3) : List ℝ :=
  traj.map fun p => p.x * Real.cos θ - p.z * Real.sin θ

/-- The rotated y-coordinates (`y_rot = y`, independent of the angle). -/
def rotYs (traj : List Vec3) : List ℝ := traj.map fun p => p.y

/-- Minimum of a nonempty list (`screen_points[:, i].min()`); junk 0 on `[]`. -/
noncomputable def lminR : List ℝ → ℝ
  | [] => 0
  | v :: vs => vs.foldl min v

/-- Maximum of a nonempty list (`screen_points[:, i].max()`); junk 0 on `[]`. -/
noncomputable def lmaxR : List ℝ → ℝ
  | [] => 0
  | v :: vs => vs.foldl max v

/-- `range_x = max_x - min_x` over the rotated trajectory. -/
noncomputable def rangeX (θ : ℝ) (traj : List Vec3) : ℝ :=
  lmaxR (rotXs θ traj) - lminR (rotXs θ traj)

/-- `range_y = max_y - min_y` over the rotated trajectory. -/
noncomputable def rangeY (traj : List Vec3) : ℝ :=
  lmaxR (rotYs traj) - lminR (rotYs traj)

/-- The degenerate-range guard: `if range < 0.1: range = 0.1`. -/
noncomputable def effRange (r : ℝ) : ℝ := if r < 0.1 then 0.1 else r

/-- `scale = min(80.0 / range_x, 80.0 / range_y)` after the guard. -/
noncomputable def scaleFor (θ : ℝ) (traj : List Vec3) : ℝ :=
  min (80 / effRange (rangeX θ traj)) (80 / effRange (rangeY traj))

/-- `center_x = (min_x + max_x) / 2`. -/
noncomputable def centerX (θ : ℝ) (traj : List Vec3) : ℝ :=
  (lminR (rotXs θ traj) + lmaxR (rotXs θ traj)) / 2

/-- `center_y = (min_y + max_y) / 2`. -/
noncomputable def centerY (traj : List Vec3) : ℝ :=
  (lminR (rotYs traj) + lmaxR (rotYs traj)) / 2

/-- `LorenzSimulator.get_screen_coordinates`: returns the pair of lists
`(screen_x, screen_y)`, each coordinate centered, scaled, shifted by 100 and
clamped to `[5, 195]`; the empty trajectory yields `([], [])`. -/
noncomputable def get_screen_coordinates (θ : ℝ) (traj : List Vec3) :
    List ℝ × List ℝ :=
  if traj.isEmpty then ([], [])
  else
    ((rotXs θ traj).map fun v => clipR ((v - centerX θ traj) * scaleFor θ traj + 100),
     (rotYs traj).map fun v => clipR ((v - centerY traj) * scaleFor θ traj + 100))

theorem clipR_bounds (v : ℝ) : 5 ≤ clipR v ∧ clipR v ≤ 195 :=
  ⟨le_max_left 5 _, max_le (by norm_num) (min_le_right v 195)⟩

theorem effRange_ge (r : ℝ) : (0.1 : ℝ) ≤ effRange r := by
  unfold effRange
  split
  · exact le_refl _
  · linarith [not_lt.mp (by assumption)]

theorem scaleFor_pos (θ : ℝ) (traj : List Vec3) : 0 < scaleFor θ traj := by
  have h1 := effRange_ge (rangeX θ traj)
  have h2 := effRange_ge (rangeY traj)
  have : (0 : ℝ) < 80 / effRange (rangeX θ traj) := by positivity
  have : (0 : ℝ) < 80 / effRange (rangeY traj) := by positivity
  exact lt_min (by assumption) (by assumption)

theorem gsc_output_spec (traj : List Vec3) (θ : ℝ) (h : traj ≠ []) :
    (get_screen_coordinates θ traj).1.length = traj.length ∧
      (get_screen_coordinates θ traj).2.length = traj.length ∧
      (∀ v ∈ (get_screen_coordinates θ traj).1, 5 ≤ v ∧ v ≤ 195) ∧
      (∀ v ∈ (get_screen_coordinates θ traj).2, 5 ≤ v ∧ v ≤ 195) ∧
      (0.1 : ℝ) ≤ effRange (rangeX θ traj) ∧
      (0.1 : ℝ) ≤ effRange (rangeY traj) ∧
      0 < scaleFor θ traj := by
  have hni : traj.isEmpty = false := by
    simpa [List.isEmpty_iff] using h
  simp only [get_screen_coordinates, hni, Bool.false_eq_true, if_false]
  refine ⟨by simp [rotXs], by simp [rotYs], ?_, ?_,
    effRange_ge _, effRange_ge _, scaleFor_pos θ traj⟩
  · intro v hv
    obtain ⟨w, _, rfl⟩ := List.mem_map.mp hv
    exact clipR_bounds _
  · intro v hv
    obtain ⟨w, _, rfl⟩ := List.mem_map.mp hv
    exact clipR_bounds _

/-- C3: projection of a nonempty trajectory keeps one output coordinate per
point on each axis, every output lies in `[5, 195]`, and the effective ranges
fed to the division are at least the epsilon 0.1 (so the scale is positive
and no division blow-up occurs). -/
theorem projection_fits (traj : List Vec3) (θ : ℝ) (h : traj ≠ []) :
    (get_screen_coordinates θ traj).1.length = traj.length ∧
      (get_screen_coordinates θ traj).2.length = traj.length ∧
      (∀ v ∈ (get_screen_coordinates θ traj).1, 5 ≤ v ∧ v ≤ 195) ∧
      (∀ v ∈ (get_screen_coordinates θ traj).2, 5 ≤ v ∧ v ≤ 195) ∧
      (0.1 : ℝ) ≤ effRange (rangeX θ traj) ∧
      (0.1 : ℝ) ≤ effRange (rangeY traj) ∧
      0 < scaleFor θ traj :=
  gsc_output_spec traj θ h

/-- Witness for C3 at the one-point trajectory `[(1,1,1)]`, angle 0. -/
theorem projection_fits_witness :
    ([(⟨1, 1, 1⟩ : Vec3)] ≠ []) ∧
      (get_screen_coordinates 0 [(⟨1, 1, 1⟩ : Vec3)]).1.length = 1 :=
  ⟨by simp, (projection_fits [⟨1, 1, 1⟩] 0 (by simp)).1⟩

/-- A one-point trajectory has degenerate ranges on both axes, so both are
clamped to 0.1 and the single point lands exactly at the viewport center
`(100, 100)` for every rotation angle. -/
theorem gsc_single (θ : ℝ) (p : Vec3) :
    get_screen_coordinates θ [p] = ([100], [100]) := by
  have hx : rangeX θ [p] = 0 := by
    simp [rangeX, rotXs, lminR, lmaxR]
  have hy : rangeY [p] = 0 := by
    simp [rangeY, rotYs, lminR, lmaxR]
  have hcx : centerX θ [p] = p.x * Real.cos θ - p.z * Real.sin θ := by
    simp [centerX, rotXs, lminR, lmaxR]
  have hcy : centerY [p] = p.y := by
    simp [centerY, rotYs, lminR, lmaxR]
  have heff : effRange 0 = 0.1 := by
    unfold effRange
    rw [if_pos (by norm_num)]
  simp only [get_screen_coordinates, List.isEmpty_cons, Bool.false_eq_true, if_false,
    rotXs, rotYs, List.map_cons, List.map_nil, scaleFor, hx, hy, hcx, hcy, heff]
  norm_num [clipR]

/-- The float bounds check of the rasterizer's 3×3 stroke
(`0 <= x + dx < 200`). -/
def inFrameR (v : ℝ) : Prop := 0 ≤ v ∧ v < 200

/-- The integer bounds check of the rasterizer's 5×5 stroke
(`0 <= current_x + dx < 200`). -/
def inFrameZ (n : ℤ) : Prop := 0 ≤ n ∧ n < 200

theorem gsc_mem_bounds (traj : List Vec3) (θ : ℝ) (v : ℝ)
    (hv : v ∈ (get_screen_coordinates θ traj).1 ∨
      v ∈ (get_screen_coordinates θ traj).2) :
    5 ≤ v ∧ v ≤ 195 := by
  by_cases he : traj.isEmpty
  · simp [get_screen_coordinates, he] at hv
  · have hne : traj ≠ [] := by simpa [List.isEmpty_iff] using he
    have h := gsc_output_spec traj θ hne
    rcases hv with hv | hv
    · exact h.2.2.1 v hv
    · exact h.2.2.2.1 v hv

/-- C10: every sub-pixel write generated from projector output — a clamped
coordinate plus a stroke offset of magnitude at most 2, in float form (3×3
stroke test) or floored integer form (5×5 stroke test) — passes the frame
bounds check, so the rasterizer's skip branch is never taken. -/
theorem raster_skip_branch_dead (traj : List Vec3) (θ : ℝ) (v : ℝ)
    (hv : v ∈ (get_screen_coordinates θ traj).1 ∨
      v ∈ (get_screen_coordinates θ traj).2)
    (d : ℤ) (hd1 : -2 ≤ d) (hd2 : d ≤ 2) :
    inFrameR (v + d) ∧ inFrameZ (⌊v⌋ + d) := by
  obtain ⟨h5, h195⟩ := gsc_mem_bounds traj θ v hv
  have hdr1 : (-2 : ℝ) ≤ (d : ℝ) := by exact_mod_cast hd1
  have hdr2 : (d : ℝ) ≤ 2 := by exact_mod_cast hd2
  have hf5 : (5 : ℤ) ≤ ⌊v⌋ := by
    rw [Int.le_floor]
    exact_mod_cast h5
  have hf195 : ⌊v⌋ ≤ 195 := by
    have := Int.floor_le v
    have : (⌊v⌋ : ℝ) ≤ 195 := le_trans (Int.floor_le v) h195
    exact_mod_cast this
  exact ⟨⟨by linarith, by linarith⟩, ⟨by omega, by omega⟩⟩

/-- Witness for C10 at the one-point trajectory `[(1,1,1)]`, angle 0,
coordinate 100, offset 2. -/
theorem raster_skip_branch_dead_witness :
    inFrameR ((100 : ℝ) + (2 : ℤ)) ∧ inFrameZ (⌊(100 : ℝ)⌋ + 2) :=
  raster_skip_branch_dead [⟨1, 1, 1⟩] 0 100
    (Or.inl (by rw [gsc_single]; simp)) 2 (by norm_num) (by norm_num)

/-! ## Rasterizer -/

/-- The 3×3 trajectory stroke of `create_watchy_frame_pil`: pixel `(i, j)`
receives a write from some projected point `(x, y)` and offsets
`dx, dy ∈ [-1, 1]` passing the float bounds check, the write landing at
`(int(x + dx), int(y + dy))` (truncation = floor on these nonnegative
coordinates). -/
def stroke3 (sx sy : List ℝ) (i j : ℤ) : Prop :=
  ∃ q ∈ sx.zip sy, ∃ dx : ℤ, -1 ≤ dx ∧ dx ≤ 1 ∧ ∃ dy : ℤ, -1 ≤ dy ∧ dy ≤ 1 ∧
    0 ≤ q.1 + dx ∧ q.1 + dx < 200 ∧ 0 ≤ q.2 + dy ∧ q.2 + dy < 200 ∧
    i = ⌊q.1 + dx⌋ ∧ j = ⌊q.2 + dy⌋

/-- The 5×5 current-position stroke: drawn only when the list is nonempty,
centered on the floored last projected point, offsets `dx, dy ∈ [-2, 2]`
with the integer bounds check. -/
def stroke5 (sx sy : List ℝ) (i j : ℤ) : Prop :=
  sx ≠ [] ∧ ∃ dx : ℤ, -2 ≤ dx ∧ dx ≤ 2 ∧ ∃ dy : ℤ, -2 ≤ dy ∧ dy ≤ 2 ∧
    0 ≤ ⌊sx.getLastD 0⌋ + dx ∧ ⌊sx.getLastD 0⌋ + dx < 200 ∧
    0 ≤ ⌊sy.getLastD 0⌋ + dy ∧ ⌊sy.getLastD 0⌋ + dy < 200 ∧
    i = ⌊sx.getLastD 0⌋ + dx ∧ j = ⌊sy.getLastD 0⌋ + dy

/-- Pixel `(i, j)` is black in the simulated part of the frame: it was
written by the trajectory stroke or by the current-position stroke (all
other pixels keep the white background of `Image.new`). -/
def framePainted (sx sy : List ℝ) (i j : ℤ) : Prop :=
  stroke3 sx sy i j ∨ stroke5 sx sy i j

theorem floor_hundred_add (d : ℤ) : ⌊(100 : ℝ) + (d : ℝ)⌋ = 100 + d := by
  rw [show (100 : ℝ) + (d : ℝ) = ((100 + d : ℤ) : ℝ) by push_cast; ring,
    Int.floor_intCast]

/-- C6: for a one-point trajectory the rendered simulated content is exactly
the 5×5 block centered at the viewport center `(100, 100)`: a pixel is
painted iff it lies in `[98, 102] × [98, 102]` (the 3×3 stroke is contained
in the 5×5 emphasis stroke), and every other pixel stays background. -/
theorem single_point_frame (p : Vec3) (θ : ℝ) (i j : ℤ) :
    framePainted (get_screen_coordinates θ [p]).1 (get_screen_coordinates θ [p]).2 i j ↔
      (98 ≤ i ∧ i ≤ 102 ∧ 98 ≤ j ∧ j ≤ 102) := by
  rw [gsc_single]
  have hlast : (([100] : List ℝ)).getLastD 0 = 100 := rfl
  have hflr : ⌊(100 : ℝ)⌋ = 100 := by simp
  constructor
  · rintro (⟨q, hq, dx, hdx1, hdx2, dy, hdy1, hdy2, _, _, _, _, hi, hj⟩ |
      ⟨-, dx, hdx1, hdx2, dy, hdy1, hdy2, _, _, _, _, hi, hj⟩)
    · simp only [List.zip_cons_cons, List.zip_nil_right, List.mem_singleton] at hq
      subst hq
      rw [floor_hundred_add] at hi hj
      omega
    · simp only [hlast, hflr] at hi hj
      omega
  · rintro ⟨h1, h2, h3, h4⟩
    refine Or.inr ⟨by simp, i - 100, by omega, by omega, j - 100, by omega, by omega,
      ?_, ?_, ?_, ?_, ?_, ?_⟩ <;>
      simp only [hlast, hflr] <;> omega

/-! ## Rotation update -/

/-- The rotation update at the end of `simulate_frame`: add 0.2 rad, and if
the result exceeds 2π subtract 2π once. -/
noncomputable def rotStep (a : ℝ) : ℝ :=
  if a + 0.2 > 2 * Real.pi then a + 0.2 - 2 * Real.pi else a + 0.2

/-- The rotation angle after `k` frames, starting from the constructor's 0. -/
noncomputable def rotAngle : ℕ → ℝ
  | 0 => 0
  | k + 1 => rotStep (rotAngle k)

theorem rotAngle_inv (k : ℕ) :
    (0 ≤ rotAngle k ∧ rotAngle k < 2 * Real.pi) ∧
      ∃ m : ℕ, rotAngle k = 0.2 * k - 2 * Real.pi * m := by
  have hπ := Real.pi_gt_d6
  induction k with
  | zero =>
    exact ⟨⟨le_refl 0, by unfold rotAngle; linarith⟩, 0, by simp [rotAngle]⟩
  | succ k ih =>
    obtain ⟨⟨h0, h2⟩, m, hm⟩ := ih
    rw [show rotAngle (k + 1) = rotStep (rotAngle k) from rfl, rotStep]
    by_cases hc : rotAngle k + 0.2 > 2 * Real.pi
    · rw [if_pos hc]
      refine ⟨⟨by linarith, by linarith⟩, m + 1, ?_⟩
      push_cast
      linarith
    · rw [if_neg hc]
      push_cast at hm ⊢
      have hne : rotAngle k + 0.2 ≠ 2 * Real.pi := by
        intro heq
        have hq : Real.pi = ((((k : ℚ) + 1) / (10 * ((m : ℚ) + 1))) : ℚ) := by
          have hd : (0 : ℝ) < 10 * ((m : ℝ) + 1) := by positivity
          push_cast
          rw [eq_div_iff (by positivity)]
          linarith
        exact irrational_pi.ne_rat _ hq
      refine ⟨⟨by linarith, lt_of_le_of_ne (by linarith) ?_⟩, m, by linarith⟩
      intro heq
      exact hne heq

theorem rotAngle_le_31 : ∀ k, k ≤ 31 → rotAngle k = 0.2 * k := by
  intro k
  induction k with
  | zero => intro _; simp [rotAngle]
  | succ k ih =>
    intro h
    have hπ := Real.pi_gt_d6
    have hk : (k : ℝ) ≤ 30 := by exact_mod_cast Nat.le_of_succ_le_succ h
    rw [show rotAngle (k + 1) = rotStep (rotAngle k) from rfl, ih (by omega), rotStep,
      if_neg (by linarith)]
    push_cast
    ring_nf

/-- C5: starting from angle 0, every frame adds exactly 0.2 rad modulo 2π
(the angle always differs from `0.2 k` by `2π m` for a natural `m`), the
angle stays in `[0, 2π)` after every frame, and after exactly
`⌈2π / 0.2⌉ = 32` frames it has wrapped at least once (`m = 1`). -/
theorem rotation_angle_wraps :
    (∀ k, 0 ≤ rotAngle k ∧ rotAngle k < 2 * Real.pi) ∧
      (∀ k, ∃ m : ℕ, rotAngle k = 0.2 * k - 2 * Real.pi * m) ∧
      ⌈2 * Real.pi / 0.2⌉₊ = 32 ∧
      rotAngle 32 = 0.2 * 32 - 2 * Real.pi * 1 := by
  have hπ := Real.pi_gt_d6
  have hπ2 := Real.pi_lt_d6
  refine ⟨fun k => (rotAngle_inv k).1, fun k => (rotAngle_inv k).2, ?_, ?_⟩
  · rw [Nat.ceil_eq_iff (by norm_num)]
    constructor
    · push_cast
      rw [lt_div_iff₀ (by norm_num)]
      linarith
    · rw [div_le_iff₀ (by norm_num)]
      push_cast
      linarith
  · have h31 : rotAngle 31 = 0.2 * 31 := by
      simpa using rotAngle_le_31 31 (le_refl 31)
    rw [show rotAngle 32 = rotStep (rotAngle 31) from rfl, h31, rotStep,
      if_pos (by norm_num; linarith)]
    norm_num

/-! ## Construction -/

/-- C7: `LorenzSimulator.__init__` admits no configuration input — every
field is hardcoded — so the only constructible simulator satisfies every
stated precondition: positive trajectory capacity, positive viewport
dimensions, and a buffer within capacity (the initial state `(1,1,1)` is a
finite real vector by the embedding).  No invalid configuration can ever be
accepted at construction. -/
theorem construction_always_valid :
    0 < init.max_points ∧ 0 < init.display_width ∧ 0 < init.display_height ∧
      init.trajectory.length ≤ init.max_points ∧
      init.pos = ⟨1, 1, 1⟩ := by
  refine ⟨?_, ?_, ?_, ?_, ?_⟩ <;> norm_num [init]

/-! ## Uniform input scaling (auto-fit) -/

theorem effRange_eq_max (r : ℝ) : effRange r = max r 0.1 := by
  unfold effRange
  rcases lt_or_le r 0.1 with h | h
  · rw [if_pos h, max_eq_right h.le]
  · rw [if_neg (not_lt.mpr h), max_eq_left h]

theorem min_div_eq_div_max (u v : ℝ) (hu : 0 < u) (hv : 0 < v) :
    min (80 / u) (80 / v) = 80 / max u v := by
  rcases le_total u v with h | h
  · rw [max_eq_right h, min_eq_right (by gcongr)]
  · rw [max_eq_left h, min_eq_left (by gcongr)]

/-- The scale factor in closed form: `80` divided by the larger of the two
raw ranges, floored at the epsilon `0.1`. -/
theorem scaleFor_closed (θ : ℝ) (traj : List Vec3) :
    scaleFor θ traj = 80 / max (max (rangeX θ traj) (rangeY traj)) 0.1 := by
  unfold scaleFor
  rw [effRange_eq_max, effRange_eq_max,
    min_div_eq_div_max _ _ (lt_of_lt_of_le (by norm_num) (le_max_right _ _))
      (lt_of_lt_of_le (by norm_num) (le_max_right _ _))]
  rw [max_max_max_comm, max_self]

theorem rotXs_vscale (θ c : ℝ) (traj : List Vec3) :
    rotXs θ (traj.map (vscale c)) = (rotXs θ traj).map (fun v => c * v) := by
  unfold rotXs vscale
  rw [List.map_map, List.map_map]
  refine List.map_congr_left fun p _ => ?_
  simp only [Function.comp_apply]
  ring

theorem rotYs_vscale (c : ℝ) (traj : List Vec3) :
    rotYs (traj.map (vscale c)) = (rotYs traj).map (fun v => c * v) := by
  unfold rotYs vscale
  rw [List.map_map, List.map_map]
  exact List.map_congr_left fun p _ => rfl

theorem foldl_min_mul (c : ℝ) (hc : 0 ≤ c) (vs : List ℝ) :
    ∀ v, List.foldl min (c * v) (vs.map (fun w => c * w)) = c * List.foldl min v vs := by
  induction vs with
  | nil => intro v; rfl
  | cons w ws ih =>
    intro v
    simp only [List.map_cons, List.foldl_cons]
    rw [← mul_min_of_nonneg _ _ hc, ih]

theorem foldl_max_mul (c : ℝ) (hc : 0 ≤ c) (vs : List ℝ) :
    ∀ v, List.foldl max (c * v) (vs.map (fun w => c * w)) = c * List.foldl max v vs := by
  induction vs with
  | nil => intro v; rfl
  | cons w ws ih =>
    intro v
    simp only [List.map_cons, List.foldl_cons]
    rw [← mul_max_of_nonneg _ _ hc, ih]

theorem lminR_mul (c : ℝ) (hc : 0 ≤ c) (l : List ℝ) :
    lminR (l.map (fun w => c * w)) = c * lminR l := by
  cases l with
  | nil => simp [lminR]
  | cons v vs => exact foldl_min_mul c hc vs v

theorem lmaxR_mul (c : ℝ) (hc : 0 ≤ c) (l : List ℝ) :
    lmaxR (l.map (fun w => c * w)) = c * lmaxR l := by
  cases l with
  | nil => simp [lmaxR]
  | cons v vs => exact foldl_max_mul c hc vs v

theorem rangeX_vscale (θ c : ℝ) (hc : 0 ≤ c) (traj : List Vec3) :
    rangeX θ (traj.map (vscale c)) = c * rangeX θ traj := by
  unfold rangeX
  rw [rotXs_vscale, lminR_mul c hc, lmaxR_mul c hc]
  ring

theorem rangeY_vscale (c : ℝ) (hc : 0 ≤ c) (traj : List Vec3) :
    rangeY (traj.map (vscale c)) = c * rangeY traj := by
  unfold rangeY
  rw [rotYs_vscale, lminR_mul c hc, lmaxR_mul c hc]
  ring

theorem centerX_vscale (θ c : ℝ) (hc : 0 ≤ c) (traj : List Vec3) :
    centerX θ (traj.map (vscale c)) = c * centerX θ traj := by
  unfold centerX
  rw [rotXs_vscale, lminR_mul c hc, lmaxR_mul c hc]
  ring

theorem centerY_vscale (c : ℝ) (hc : 0 ≤ c) (traj : List Vec3) :
    centerY (traj.map (vscale c)) = c * centerY traj := by
  unfold centerY
  rw [rotYs_vscale, lminR_mul c hc, lmaxR_mul c hc]
  ring

/-- C4 (corrected): the original claim fails when the epsilon clamp is
active in one projection but not the other.  At θ = 0, the two-point
trajectory `[(0,0,0), (0.05,0,0)]` has x-range `0.05 < 0.1` (clamped),
while its 10-fold scaling has x-range `0.5` (not clamped): the projected
x-coordinates are `[80, 120]` versus `[60, 140]`. -/
theorem scaling_invariance_cex :
    (0 : ℝ) < 10 ∧
      get_screen_coordinates 0 (List.map (vscale 10) [⟨0, 0, 0⟩, ⟨0.05, 0, 0⟩]) ≠
        get_screen_coordinates 0 [⟨0, 0, 0⟩, ⟨0.05, 0, 0⟩] := by
  refine ⟨by norm_num, ?_⟩
  have e1 : (get_screen_coordinates 0 [(⟨0, 0, 0⟩ : Vec3), ⟨0.05, 0, 0⟩]).1 = [80, 120] := by
    simp only [get_screen_coordinates, List.isEmpty_cons, Bool.false_eq_true, if_false,
      rotXs, rotYs, List.map_cons, List.map_nil, scaleFor, centerX, centerY,
      rangeX, rangeY, lminR, lmaxR, List.foldl_cons, List.foldl_nil,
      effRange, clipR, Real.cos_zero, Real.sin_zero]
    norm_num [min_def, max_def]
  have e2 : (get_screen_coordinates 0
      (List.map (vscale 10) [(⟨0, 0, 0⟩ : Vec3), ⟨0.05, 0, 0⟩])).1 = [60, 140] := by
    simp only [vscale, List.map_cons, List.map_nil]
    simp only [get_screen_coordinates, List.isEmpty_cons, Bool.false_eq_true, if_false,
      rotXs, rotYs, List.map_cons, List.map_nil, scaleFor, centerX, centerY,
      rangeX, rangeY, lminR, lmaxR, List.foldl_cons, List.foldl_nil,
      effRange, clipR, Real.cos_zero, Real.sin_zero]
    norm_num [min_def, max_def]
  intro h
  rw [Prod.ext_iff] at h
  rw [e1, e2] at h
  have := h.1
  simp at this

/-- C4 (amended): projecting the trajectory scaled by a positive constant
`c` yields the same pixel coordinates as projecting the original, provided
the epsilon clamp is inactive in both projections, i.e. the larger of the
two rotated bounding-box ranges is at least 0.1 both before and after
scaling. -/
theorem scaling_invariance (traj : List Vec3) (θ c : ℝ) (hc : 0 < c)
    (h1 : (0.1 : ℝ) ≤ max (rangeX θ traj) (rangeY traj))
    (h2 : (0.1 : ℝ) ≤ c * max (rangeX θ traj) (rangeY traj)) :
    get_screen_coordinates θ (traj.map (vscale c)) =
      get_screen_coordinates θ traj := by
  have hM : (0 : ℝ) < max (rangeX θ traj) (rangeY traj) := by linarith
  have hscale : scaleFor θ (traj.map (vscale c)) = scaleFor θ traj / c := by
    rw [scaleFor_closed, scaleFor_closed,
      rangeX_vscale θ c hc.le, rangeY_vscale c hc.le,
      ← mul_max_of_nonneg _ _ hc.le,
      max_eq_left h2, max_eq_left h1, div_div]
    ring_nf
  by_cases he : traj.isEmpty
  · have : traj = [] := List.isEmpty_iff.mp he
    subst this
    rfl
  · have htne : traj ≠ [] := by simpa [List.isEmpty_iff] using he
    have htne' : traj.map (vscale c) ≠ [] := by
      simpa [List.map_eq_nil_iff] using htne
    unfold get_screen_coordinates
    rw [if_neg (by simpa [List.isEmpty_iff] using htne'),
      if_neg (by simpa [List.isEmpty_iff] using htne)]
    rw [rotXs_vscale, rotYs_vscale, hscale,
      centerX_vscale θ c hc.le, centerY_vscale c hc.le,
      List.map_map, List.map_map]
    refine Prod.ext ?_ ?_ <;>
      refine List.map_congr_left fun v _ => ?_ <;>
      simp only [Function.comp_apply] <;>
      congr 1 <;>
      field_simp <;>
      ring

/-- Witness for the amended C4: doubling the trajectory
`[(0,0,0), (1,0,0)]` (x-range 1 at angle 0) leaves the projection
unchanged. -/
theorem scaling_invariance_witness :
    get_screen_coordinates 0 (List.map (vscale 2) [⟨0, 0, 0⟩, ⟨1, 0, 0⟩]) =
      get_screen_coordinates 0 [⟨0, 0, 0⟩, ⟨1, 0, 0⟩] := by
  have hr : max (rangeX 0 [(⟨0, 0, 0⟩ : Vec3), ⟨1, 0, 0⟩])
      (rangeY [(⟨0, 0, 0⟩ : Vec3), ⟨1, 0, 0⟩]) = 1 := by
    simp only [rangeX, rangeY, rotXs, rotYs, List.map_cons, List.map_nil,
      lminR, lmaxR, List.foldl_cons, List.foldl_nil, Real.cos_zero, Real.sin_zero]
    norm_num [min_def, max_def]
  exact scaling_invariance [⟨0, 0, 0⟩, ⟨1, 0, 0⟩] 0 2 (by norm_num)
    (by rw [hr]; norm_num) (by rw [hr]; norm_num)

end ChaosDemo
